import Mathlib

/-!
Verification of the eflag configuration resolver.

This file embeds the Go sources of the eflag repository (the `FlagSet`
version in the package root: eflag.go, utils.go, types.go) as executable
Lean definitions and proves the specified properties of the resolution
engine: name derivation, prefixing, the precedence pass over bindings, and
string-list materialization.

Modelling conventions:
- Character predicates and case conversion model Go's unicode helpers on
  the ASCII range, which is the only range exercised by the repository
  (flag names and env directives are ASCII identifiers).
- Go's strings.Split is modelled for single-character separators; every
  separator used in the repository (",") is a single character.
- The process environment is a function String -> Option String; Go's
  os.Getenv returns "" for an absent variable, modelled by osGetenv.
- The external argument parser (the standard flag package) is modelled by
  its contract: it writes the coerced command-line texts into the bound
  storage cells and reports which flags were supplied (Changed).
- The type switch over bound storage covers the variants the properties
  exercise (bool, int, string, StringList); the remaining scalar cases of
  the Go switch (uint, int64, uint64, float64, duration) have the same
  shape and are not consulted by any property below.
- os.Exit(2) on an environment coercion failure is modelled by the error
  branch of Except: the resolution call does not return normally.
-/

namespace Eflag

/-- ASCII model of Go's unicode.IsSpace as used by strings.TrimSpace. -/
def goIsSpace (c : Char) : Bool :=
  c = ' ' || c = '\t' || c = '\n' || c = '\r' || c = '\x0b' || c = '\x0c'

/-- Go strings.TrimSpace: drop leading and trailing whitespace. -/
def goTrimSpace (s : String) : String :=
  String.mk (((s.data.dropWhile goIsSpace).reverse.dropWhile goIsSpace).reverse)

/-- Split a character list at every occurrence of the separator character.
Matches Go strings.Split for a single-character separator: the empty
input yields one empty part. -/
def splitOnChar (sep : Char) : List Char → List (List Char)
  | [] => [[]]
  | c :: rest =>
    let r := splitOnChar sep rest
    if c = sep then [] :: r
    else
      match r with
      | [] => [[c]]
      | h :: t => (c :: h) :: t

/-- utils.go SplitWith: split on the separator and trim every part.
The repository only ever calls it with single-character separators. -/
def SplitWith (s : String) (sep : Char) : List String :=
  (splitOnChar sep s.data).map (fun cs => goTrimSpace (String.mk cs))

/-- utils.go SplitWithComma: split on commas and trim every part. -/
def SplitWithComma (s : String) : List String :=
  SplitWith s ','

/-- ASCII model of Go strings.ToUpper. -/
def goToUpper (s : String) : String :=
  String.mk (s.data.map Char.toUpper)

/-- Go strings.HasPrefix. -/
def goHasPfx (s px : String) : Bool :=
  px.data.isPrefixOf s.data

/-- Go strings.HasSuffix. -/
def goHasSuffix (s sx : String) : Bool :=
  sx.data.isSuffixOf s.data

/-- The prefixing step inlined in FlagSet.parse: a non-empty prefix is
prepended unless the name already starts with it. -/
def applyPfx (n p : String) : String :=
  if p ≠ "" ∧ goHasPfx n p = false then p ++ n else n

/-- FlagSet.SetPrefix normalization: upper-case a non-empty prefix and
ensure it ends with a single underscore. -/
def normalizePfx (p : String) : String :=
  if p ≠ "" then
    let q := goToUpper p
    if goHasSuffix q "_" = false then q ++ "_" else q
  else p

/-- Scan tail of utils.go MixedCapsToScreamingSnake: prev is the previous
character of the original string (Go reads s[i-1]). An upper-case letter
after a non-upper character gets an underscore inserted before it;
every other character is upper-cased. -/
def mcssAux (prev : Char) : List Char → List Char
  | [] => []
  | c :: rest =>
    if c.isUpper ∧ prev.isUpper = false then '_' :: c :: mcssAux c rest
    else c.toUpper :: mcssAux c rest

/-- utils.go MixedCapsToScreamingSnake: convert a mixedCaps identifier to
a MIXED_CAPS environment-variable name. The first character never gets
an underscore (the Go loop requires i > 0). -/
def MixedCapsToScreamingSnake (s : String) : String :=
  match s.data with
  | [] => ""
  | c :: rest => String.mk (c.toUpper :: mcssAux c rest)

/-- Go strconv.ParseBool: the exact accepted truthy and falsy texts. -/
def goParseBool (s : String) : Option Bool :=
  if s = "1" ∨ s = "t" ∨ s = "T" ∨ s = "TRUE" ∨ s = "true" ∨ s = "True" then some true
  else if s = "0" ∨ s = "f" ∨ s = "F" ∨ s = "FALSE" ∨ s = "false" ∨ s = "False" then some false
  else none

/-- Accumulate base-10 digits; any non-digit character fails. -/
def decNatAux (acc : Nat) : List Char → Option Nat
  | [] => some acc
  | c :: rest =>
    if c.isDigit then decNatAux (acc * 10 + (c.toNat - 48)) rest
    else none

/-- Go strconv.ParseInt(s, 10, 64): optional sign, non-empty digit run,
failure on any non-digit or on 64-bit overflow. -/
def goParseInt (s : String) : Option Int :=
  let neg : Bool :=
    match s.data with
    | '-' :: _ => true
    | _ => false
  let ds : List Char :=
    match s.data with
    | '-' :: rest => rest
    | '+' :: rest => rest
    | cs => cs
  match ds with
  | [] => none
  | _ :: _ =>
    match decNatAux 0 ds with
    | none => none
    | some n =>
      let v : Int := if neg then -(n : Int) else (n : Int)
      if -(2 ^ 63) ≤ v ∧ v < 2 ^ 63 then some v else none

/-- types.go StringList: a raw comma-separated backing string (the cell
registered with the flag package) and the materialized list view. -/
structure StringList where
  p : String
  value : List String
deriving DecidableEq

/-- types.go StringList.setValue: split the backing string on commas
unless it is empty. -/
def StringList.setValue (sl : StringList) : StringList :=
  if sl.p ≠ "" then { sl with value := SplitWithComma sl.p } else sl

/-- types.go StringList.Value. -/
def StringList.Value (sl : StringList) : List String :=
  sl.value

/-- The typed storage cell bound to a flag. The variants cover the bound
types the verified properties exercise. -/
inductive EValue where
  | b (x : Bool)
  | i (x : Int)
  | s (x : String)
  | sl (x : StringList)
deriving DecidableEq

/-- flag.Value.Set for each bound type: coerce the text and assign. A
StringList flag is registered through StringVar on its backing string, so
Set only replaces the raw string. -/
def setFromStr : EValue → String → Option EValue
  | .b _, v => (goParseBool v).map EValue.b
  | .i _, v => (goParseInt v).map EValue.i
  | .s _, v => some (.s v)
  | .sl x, v => some (.sl { x with p := v })

/-- The registered storage cell seen by the argument parser: for a
StringList binding that cell is the raw backing string. -/
def EValue.regCell : EValue → EValue
  | .sl x => .s x.p
  | v => v

/-- eflag.go Flag: name, associated environment variable name (with "-"
suppressing the environment), the Changed mark, the registered default,
and the bound storage cell. -/
structure Flag where
  name : String
  env : String
  changed : Bool
  dflt : EValue
  storage : EValue
deriving DecidableEq

/-- The binding's registered cell (the memory the caller handed over). -/
def Flag.cell (f : Flag) : EValue :=
  f.storage.regCell

/-- eflag.go newFlag: register the storage with its default and compute
the environment directive: "" derives the name from the flag name, "-"
suppresses the environment, anything else is upper-cased. -/
def newFlag (name : String) (value : EValue) (env : String) : Flag :=
  let e :=
    if env = "" then MixedCapsToScreamingSnake name
    else if env = "-" then env
    else goToUpper env
  { name := name, env := e, changed := false, dflt := value, storage := value }

/-- The data printed before os.Exit(2) on an environment coercion
failure: the environment variable name and the offending text. -/
structure EnvError where
  envName : String
  value : String
deriving DecidableEq

/-- os.Getenv: an absent variable reads as the empty string. -/
def osGetenv (envm : String → Option String) (n : String) : String :=
  (envm n).getD ""

/-- The body of the loop in FlagSet.parse for one flag: skip it if it was
explicitly set or its environment is suppressed; otherwise prepend the
prefix to its stored env name when missing, look the name up, and on a
non-empty value coerce-and-assign, exiting on a coercion failure. -/
def resolveFlag (pfx : String) (envm : String → Option String) (f : Flag) :
    Except EnvError Flag :=
  if f.changed then .ok f
  else if f.env = "-" then .ok f
  else if osGetenv envm (applyPfx f.env pfx) ≠ "" then
    match setFromStr f.storage (osGetenv envm (applyPfx f.env pfx)) with
    | some st => .ok { f with env := applyPfx f.env pfx, storage := st }
    | none =>
      .error { envName := applyPfx f.env pfx
               value := osGetenv envm (applyPfx f.env pfx) }
  else .ok { f with env := applyPfx f.env pfx }

/-- The scalar loop of FlagSet.parse over all flags, stopping at the
first coercion failure as os.Exit(2) does. -/
def resolveAll (pfx : String) (envm : String → Option String) :
    List Flag → Except EnvError (List Flag)
  | [] => .ok []
  | f :: rest =>
    match resolveFlag pfx envm f with
    | .error e => .error e
    | .ok g =>
      match resolveAll pfx envm rest with
      | .error e => .error e
      | .ok grest => .ok (g :: grest)

/-- The trailing loop of FlagSet.parse: materialize every StringList
binding from whatever raw text ended up in its backing string. -/
def materializeFlag (f : Flag) : Flag :=
  match f.storage with
  | .sl x => { f with storage := .sl x.setValue }
  | _ => f

/-- eflag.go FlagSet: the registered flags and the environment prefix. -/
structure FlagSet where
  formal : List Flag
  pfx : String
deriving DecidableEq

/-- FlagSet.SetPrefix. -/
def FlagSet.setPfx (fs : FlagSet) (p : String) : FlagSet :=
  { fs with pfx := normalizePfx p }

/-- FlagSet.parse: the environment pass — the scalar loop followed by
StringList materialization. A coercion failure aborts the pass. -/
def FlagSet.parse (fs : FlagSet) (envm : String → Option String) :
    Except EnvError FlagSet :=
  match resolveAll fs.pfx envm fs.formal with
  | .error e => .error e
  | .ok l => .ok { fs with formal := l.map materializeFlag }

/-- FlagSet.ReParse: re-run only the environment pass. -/
def FlagSet.ReParse (fs : FlagSet) (envm : String → Option String) :
    Except EnvError FlagSet :=
  fs.parse envm

/-- One explicit command-line assignment applied to one flag: the flag
package coerces the text into the bound cell, and Visit then reports the
flag as set (Changed). Flags with a different name are untouched. -/
def setCLI (n v : String) (f : Flag) : Option Flag :=
  if f.name = n then
    match setFromStr f.storage v with
    | some st => some { f with storage := st, changed := true }
    | none => none
  else some f

/-- Apply one command-line assignment across the flag list. -/
def applyArgOne (n v : String) : List Flag → Option (List Flag)
  | [] => some []
  | f :: rest =>
    match setCLI n v f with
    | none => none
    | some g =>
      match applyArgOne n v rest with
      | none => none
      | some grest => some (g :: grest)

/-- The external argument-parsing capability: apply the parsed named
assignments in order. none models an argument parse error handled by the
collaborator's error policy. -/
def parseArgs (l : List Flag) : List (String × String) → Option (List Flag)
  | [] => some l
  | a :: rest =>
    match applyArgOne a.1 a.2 l with
    | none => none
    | some l2 => parseArgs l2 rest

/-- FlagSet.Parse: delegate argv to the argument parser (which writes the
cells and marks Changed), then run the environment pass. -/
def FlagSet.Parse (fs : FlagSet) (args : List (String × String))
    (envm : String → Option String) : Option (Except EnvError FlagSet) :=
  match parseArgs fs.formal args with
  | none => none
  | some l => some (FlagSet.parse { fs with formal := l } envm)

/-- One step of the post-registration lifecycle: optionally call
SetPrefix, then run a (re-)resolution against some environment. -/
structure Step where
  newPfx : Option String
  envm : String → Option String

/-- Apply the optional SetPrefix call of a lifecycle step. -/
def stepPfx (fs : FlagSet) (st : Step) : FlagSet :=
  match st.newPfx with
  | some p => fs.setPfx p
  | none => fs

/-- Run a sequence of lifecycle steps. -/
def runSteps (fs : FlagSet) : List Step → Except EnvError FlagSet
  | [] => .ok fs
  | st :: rest =>
    match (stepPfx fs st).parse st.envm with
    | .error e => .error e
    | .ok fs2 => runSteps fs2 rest

/-! Concrete scenarios and auxiliary predicates used by the theorems below. -/

/-- A screaming-snake identifier in which no upper-case letter is preceded
by a non-upper character: upper-case letters, digits and underscores, with
every upper-case letter after the first character directly preceded by
another upper-case letter. -/
def screamingOkFrom (prev : Char) : List Char → Bool
  | [] => true
  | c :: rest =>
    ((c.isDigit || c = '_') || (c.isUpper && prev.isUpper)) && screamingOkFrom c rest

/-- Top-level form of the fixed-point class: the first character is an
upper-case letter, digit or underscore, and the rest satisfies
screamingOkFrom. -/
def screamingForm (s : String) : Bool :=
  match s.data with
  | [] => true
  | c :: rest => (c.isUpper || c.isDigit || c = '_') && screamingOkFrom c rest

/-- Concrete scenario for the C1 witness: flag x was supplied on the
command line (Changed, storage 5); flag y was not and picks up its
environment value 7; the environment also offers a value for X. -/
def flagX : Flag := ⟨"x", "X", true, EValue.i 0, EValue.i 5⟩

def flagY : Flag := ⟨"y", "Y", false, EValue.i 0, EValue.i 0⟩

def envC1 : String → Option String :=
  fun n => if n = "Y" then some "7" else some "99"

def fsC1 : FlagSet := ⟨[flagX, flagY], ""⟩

def fsC1after : FlagSet := ⟨[flagX, ⟨"y", "Y", false, EValue.i 0, EValue.i 7⟩], ""⟩

/-- Concrete scenario for the C2 witness: a suppressed string binding
(default "default"), no command-line value, a matching environment
variable "MYSTRING" (and its prefixed variant) set to "custom", one
re-resolution after SetPrefix("PRE"). -/
def envC2 : String → Option String :=
  fun n => if n = "MYSTRING" ∨ n = "PRE_MYSTRING" then some "custom" else none

def fsC2 : FlagSet := ⟨[newFlag "mystring" (EValue.s "default") "-"], ""⟩

def fsC2after : FlagSet := ⟨[newFlag "mystring" (EValue.s "default") "-"], "PRE_"⟩

/-- Concrete data for the C3 witness: the state of the "foo" binding after
the first resolution under prefix "A_", and the environment of the second
pass. -/
def envC3b : String → Option String :=
  fun n => if n = "B_FOO" then some "42" else none

def flagC3g : Flag := ⟨"foo", "A_FOO", false, EValue.i 0, EValue.i 0⟩

/-- Concrete scenario for the C5 witness: an integer binding whose derived
environment variable MYINT holds the non-numeric text "abc". -/
def envC5 : String → Option String :=
  fun n => if n = "MYINT" then some "abc" else none

def fsC5 : FlagSet := ⟨[newFlag "myint" (EValue.i 0) ""], ""⟩

/-- Concrete scenario for the C6 witness: the variable TESTUNSET is
present but empty. -/
def envC6 : String → Option String :=
  fun n => if n = "TESTUNSET" then some "" else none

/-- Concrete scenario for the C8 witness: flag b was supplied on the
command line (-b true) while its environment variable B says false; flag y
is environment-driven. -/
def envC8 : String → Option String :=
  fun n => if n = "B" then some "false" else if n = "Y" then some "7" else none

def fsC8start : FlagSet := ⟨[⟨"b", "B", false, EValue.b false, EValue.b false⟩,
  ⟨"y", "Y", false, EValue.i 0, EValue.i 0⟩], ""⟩

def fsC8 : FlagSet := ⟨[⟨"b", "B", true, EValue.b false, EValue.b true⟩,
  ⟨"y", "Y", false, EValue.i 0, EValue.i 7⟩], ""⟩

/-- Concrete scenario for the C9 witness: the repository's own test
vector — flag myStringList, prefix PREFIX_, environment
PREFIX_MY_STRING_LIST="a, b ,c". -/
def envC9 : String → Option String :=
  fun n => if n = "PREFIX_MY_STRING_LIST" then some "a, b ,c" else none

def fsC9 : FlagSet := ⟨[newFlag "myStringList" (EValue.sl ⟨"", []⟩) ""], "PREFIX_"⟩

def fsC9after : FlagSet := ⟨[⟨"myStringList", "PREFIX_MY_STRING_LIST", false,
  EValue.sl ⟨"", []⟩, EValue.sl ⟨"a, b ,c", ["a", "b", "c"]⟩⟩], "PREFIX_"⟩

/-! Basic facts about the leaf operations. -/

lemma isPrefixOf_append_self : ∀ (a b : List Char), a.isPrefixOf (a ++ b) = true
  | [], _ => by simp [List.isPrefixOf]
  | c :: a, b => by
    simp only [List.cons_append, List.isPrefixOf_cons₂_self]
    exact isPrefixOf_append_self a b

lemma data_append (s t : String) : (s ++ t).data = s.data ++ t.data := by
  cases s
  cases t
  rfl

lemma goHasPfx_append (p n : String) : goHasPfx (p ++ n) p = true := by
  unfold goHasPfx
  rw [data_append]
  exact isPrefixOf_append_self p.data n.data

lemma setValue_p (sl : StringList) : sl.setValue.p = sl.p := by
  unfold StringList.setValue
  split <;> rfl

lemma setValue_idem (sl : StringList) : sl.setValue.setValue = sl.setValue := by
  by_cases h : sl.p = ""
  · simp [StringList.setValue, h]
  · simp [StringList.setValue, h]

lemma materializeFlag_fields (f : Flag) :
    (materializeFlag f).changed = f.changed ∧ (materializeFlag f).env = f.env ∧
    (materializeFlag f).name = f.name ∧ (materializeFlag f).dflt = f.dflt := by
  cases h : f.storage <;> simp [materializeFlag, h]

lemma materializeFlag_cell (f : Flag) : (materializeFlag f).cell = f.cell := by
  cases h : f.storage <;>
    simp [materializeFlag, Flag.cell, EValue.regCell, h, setValue_p]

lemma materializeFlag_idem (f : Flag) :
    materializeFlag (materializeFlag f) = materializeFlag f := by
  cases h : f.storage <;> simp [materializeFlag, h, setValue_idem]

lemma materializeFlag_scalar (f : Flag) (h : ∀ x : StringList, f.storage ≠ .sl x) :
    materializeFlag f = f := by
  cases hs : f.storage
  case sl x => exact absurd hs (h x)
  all_goals simp [materializeFlag, hs]

/-- Helper: materializing a StringList flag only replaces the storage by
the setValue of its StringList. -/
lemma materializeFlag_sl {f : Flag} {y : StringList} (h : f.storage = .sl y) :
    materializeFlag f = { f with storage := .sl y.setValue } := by
  simp [materializeFlag, h]

/-! Facts about the per-flag environment step. -/

lemma resolveFlag_skip {pfx : String} {envm : String → Option String} {f : Flag}
    (h : f.changed = true ∨ f.env = "-") : resolveFlag pfx envm f = .ok f := by
  rcases h with h | h
  · simp [resolveFlag, h]
  · by_cases hc : f.changed
    · simp [resolveFlag, hc]
    · simp [resolveFlag, hc, h]

lemma resolveFlag_absent {pfx : String} {envm : String → Option String} {f : Flag}
    (hch : f.changed = false) (hsup : f.env ≠ "-")
    (habs : osGetenv envm (applyPfx f.env pfx) = "") :
    resolveFlag pfx envm f = .ok { f with env := applyPfx f.env pfx } := by
  simp [resolveFlag, hch, hsup, habs]

lemma resolveFlag_present_ok {pfx : String} {envm : String → Option String}
    {f : Flag} {v : String} {st : EValue}
    (hch : f.changed = false) (hsup : f.env ≠ "-")
    (hv : osGetenv envm (applyPfx f.env pfx) = v) (hne : v ≠ "")
    (hset : setFromStr f.storage v = some st) :
    resolveFlag pfx envm f =
      .ok { f with env := applyPfx f.env pfx, storage := st } := by
  simp [resolveFlag, hch, hsup, hv, hne, hset]

lemma resolveFlag_present_fail {pfx : String} {envm : String → Option String}
    {f : Flag} {v : String}
    (hch : f.changed = false) (hsup : f.env ≠ "-")
    (hv : osGetenv envm (applyPfx f.env pfx) = v) (hne : v ≠ "")
    (hset : setFromStr f.storage v = none) :
    resolveFlag pfx envm f = .error ⟨applyPfx f.env pfx, v⟩ := by
  simp [resolveFlag, hch, hsup, hv, hne, hset]

lemma resolveFlag_ok_inv {pfx : String} {envm : String → Option String} {f g : Flag}
    (h : resolveFlag pfx envm f = .ok g) :
    g.changed = f.changed ∧ g.name = f.name ∧ g.dflt = f.dflt := by
  unfold resolveFlag at h
  split at h
  · injection h with h
    subst h
    exact ⟨rfl, rfl, rfl⟩
  · split at h
    · injection h with h
      subst h
      exact ⟨rfl, rfl, rfl⟩
    · split at h
      · split at h
        · injection h with h
          subst h
          exact ⟨rfl, rfl, rfl⟩
        · exact Except.noConfusion h
      · injection h with h
        subst h
        exact ⟨rfl, rfl, rfl⟩

lemma resolveFlag_ok_env {pfx : String} {envm : String → Option String} {f g : Flag}
    (hch : f.changed = false) (hsup : f.env ≠ "-")
    (h : resolveFlag pfx envm f = .ok g) : g.env = applyPfx f.env pfx := by
  simp only [resolveFlag, hch, hsup] at h
  simp only [Bool.false_eq_true, if_false, if_neg hsup] at h
  split at h
  · split at h
    · injection h with h
      subst h
      rfl
    · exact Except.noConfusion h
  · injection h with h
    subst h
    rfl

lemma resolveFlag_consulted {pfx : String} {envm : String → Option String} {f : Flag}
    (hch : f.changed = false) (hsup : f.env ≠ "-") :
    (match resolveFlag pfx envm f with
     | .ok g => g.env
     | .error e => e.envName) = applyPfx f.env pfx := by
  by_cases hv : osGetenv envm (applyPfx f.env pfx) = ""
  · rw [resolveFlag_absent hch hsup hv]
  · cases hset : setFromStr f.storage (osGetenv envm (applyPfx f.env pfx)) with
    | some st => rw [resolveFlag_present_ok hch hsup rfl hv hset]
    | none => rw [resolveFlag_present_fail hch hsup rfl hv hset]

/-! Facts about the scalar loop over a flag list. -/

lemma resolveAll_ok_length {pfx : String} {envm : String → Option String} :
    ∀ {l l2 : List Flag}, resolveAll pfx envm l = .ok l2 → l2.length = l.length := by
  intro l
  induction l with
  | nil =>
    intro l2 h
    simp only [resolveAll] at h
    injection h with h
    subst h
    rfl
  | cons f rest ih =>
    intro l2 h
    cases hf : resolveFlag pfx envm f with
    | error e => simp [resolveAll, hf] at h
    | ok g =>
      cases hr : resolveAll pfx envm rest with
      | error e => simp [resolveAll, hf, hr] at h
      | ok grest =>
        simp only [resolveAll, hf, hr] at h
        injection h with h
        subst h
        simp [ih hr]

lemma resolveAll_ok_get {pfx : String} {envm : String → Option String} :
    ∀ {l l2 : List Flag}, resolveAll pfx envm l = .ok l2 →
      ∀ (i : Nat) (h1 : i < l.length) (h2 : i < l2.length),
        resolveFlag pfx envm l[i] = .ok l2[i] := by
  intro l
  induction l with
  | nil =>
    intro l2 h i h1 h2
    exact absurd h1 (by simp)
  | cons f rest ih =>
    intro l2 h i h1 h2
    cases hf : resolveFlag pfx envm f with
    | error e => simp [resolveAll, hf] at h
    | ok g =>
      cases hr : resolveAll pfx envm rest with
      | error e => simp [resolveAll, hf, hr] at h
      | ok grest =>
        simp only [resolveAll, hf, hr] at h
        injection h with h
        subst h
        cases i with
        | zero => simpa using hf
        | succ j =>
          have hj1 : j < rest.length := by
            simpa using Nat.lt_of_succ_lt_succ h1
          have hj2 : j < grest.length := by
            simpa using Nat.lt_of_succ_lt_succ h2
          simpa using ih hr j hj1 hj2

lemma resolveAll_mem_error {pfx : String} {envm : String → Option String} :
    ∀ {l : List Flag} {f : Flag} {e : EnvError},
      f ∈ l → resolveFlag pfx envm f = .error e →
      ∃ e2, resolveAll pfx envm l = .error e2 := by
  intro l
  induction l with
  | nil =>
    intro f e hmem _
    exact absurd hmem (List.not_mem_nil f)
  | cons g rest ih =>
    intro f e hmem herr
    rcases List.mem_cons.mp hmem with h | h
    · subst h
      exact ⟨e, by simp [resolveAll, herr]⟩
    · cases hg : resolveFlag pfx envm g with
      | error e2 => exact ⟨e2, by simp [resolveAll, hg]⟩
      | ok g2 =>
        obtain ⟨e2, hr⟩ := ih h herr
        exact ⟨e2, by simp [resolveAll, hg, hr]⟩

/-! Facts about the environment pass over a whole flag set. -/

lemma parse_ok_inv {fs fs2 : FlagSet} {envm : String → Option String}
    (h : fs.parse envm = .ok fs2) :
    fs2.pfx = fs.pfx ∧ fs2.formal.length = fs.formal.length ∧
    ∀ (i : Nat) (h1 : i < fs.formal.length) (h2 : i < fs2.formal.length),
      ∃ g, resolveFlag fs.pfx envm fs.formal[i] = .ok g ∧
        fs2.formal[i] = materializeFlag g := by
  unfold FlagSet.parse at h
  cases hr : resolveAll fs.pfx envm fs.formal with
  | error e =>
    rw [hr] at h
    exact Except.noConfusion h
  | ok l =>
    rw [hr] at h
    injection h with h
    subst h
    refine ⟨rfl, by simp [resolveAll_ok_length hr], ?_⟩
    intro i h1 h2
    have hi : i < l.length := by
      have := resolveAll_ok_length hr
      omega
    exact ⟨l[i], resolveAll_ok_get hr i h1 hi, by simp⟩

lemma parse_error_of_mem {fs : FlagSet} {envm : String → Option String}
    {f : Flag} {e : EnvError} (hmem : f ∈ fs.formal)
    (herr : resolveFlag fs.pfx envm f = .error e) :
    ∃ e2, fs.parse envm = .error e2 := by
  obtain ⟨e2, hr⟩ := resolveAll_mem_error hmem herr
  exact ⟨e2, by simp [FlagSet.parse, hr]⟩

lemma stepPfx_eq (fs : FlagSet) (st : Step) :
    ∃ q, stepPfx fs st = { fs with pfx := q } := by
  cases h : st.newPfx with
  | none => exact ⟨fs.pfx, by simp [stepPfx, h]⟩
  | some p => exact ⟨normalizePfx p, by simp [stepPfx, h, FlagSet.setPfx]⟩

lemma runSteps_ok_length :
    ∀ {steps : List Step} {fs fs2 : FlagSet},
      runSteps fs steps = .ok fs2 → fs2.formal.length = fs.formal.length := by
  intro steps
  induction steps with
  | nil =>
    intro fs fs2 h
    simp only [runSteps] at h
    injection h with h
    subst h
    rfl
  | cons st rest ih =>
    intro fs fs2 h
    obtain ⟨q, hq⟩ := stepPfx_eq fs st
    cases hp : (stepPfx fs st).parse st.envm with
    | error e => simp [runSteps, hp] at h
    | ok fsA =>
      simp only [runSteps, hp] at h
      rw [hq] at hp
      have hlen := (parse_ok_inv hp).2.1
      rw [ih h, hlen]

/-- A flag that the scalar loop skips (explicitly set, or suppressed) is
carried through any sequence of SetPrefix and (re-)resolution calls either
untouched or exactly materialized. -/
lemma runSteps_skip :
    ∀ {steps : List Step} {fs fs2 : FlagSet},
      runSteps fs steps = .ok fs2 →
      ∀ (i : Nat) (h1 : i < fs.formal.length) (h2 : i < fs2.formal.length),
        (fs.formal[i].changed = true ∨ fs.formal[i].env = "-") →
        fs2.formal[i] = fs.formal[i] ∨
          fs2.formal[i] = materializeFlag fs.formal[i] := by
  intro steps
  induction steps with
  | nil =>
    intro fs fs2 h i h1 h2 hskip
    simp only [runSteps] at h
    injection h with h
    subst h
    exact Or.inl rfl
  | cons st rest ih =>
    intro fs fs2 h i h1 h2 hskip
    obtain ⟨q, hq⟩ := stepPfx_eq fs st
    cases hp : (stepPfx fs st).parse st.envm with
    | error e => simp [runSteps, hp] at h
    | ok fsA =>
      simp only [runSteps, hp] at h
      rw [hq] at hp
      obtain ⟨hpfx, hlen, hget⟩ := parse_ok_inv hp
      have hiA : i < fsA.formal.length := by
        rw [hlen]
        exact h1
      obtain ⟨g, hres, hmat⟩ := hget i h1 hiA
      have hg : g = fs.formal[i] := by
        rw [resolveFlag_skip hskip] at hres
        injection hres with hres
        exact hres.symm
      subst hg
      have hA : fsA.formal[i] = materializeFlag fs.formal[i] := hmat
      have hskipA : fsA.formal[i].changed = true ∨ fsA.formal[i].env = "-" := by
        rw [hA]
        rcases hskip with hs | hs
        · exact Or.inl ((materializeFlag_fields _).1.trans hs)
        · exact Or.inr ((materializeFlag_fields _).2.1.trans hs)
      rcases ih h i hiA h2 hskipA with hfin | hfin
      · exact Or.inr (hfin.trans hA)
      · rw [hfin, hA, materializeFlag_idem]
        exact Or.inr rfl

/-! Facts about the modelled argument-parsing capability. -/

lemma setCLI_some_inv {n v : String} {f g : Flag} (h : setCLI n v f = some g) :
    g.name = f.name ∧ g.env = f.env ∧ g.dflt = f.dflt := by
  unfold setCLI at h
  split at h
  · split at h
    · injection h with h
      subst h
      exact ⟨rfl, rfl, rfl⟩
    · exact Option.noConfusion h
  · injection h with h
    subst h
    exact ⟨rfl, rfl, rfl⟩

lemma setCLI_other {n v : String} {f : Flag} (h : f.name ≠ n) :
    setCLI n v f = some f := by
  simp [setCLI, h]

lemma applyArgOne_ok {n v : String} :
    ∀ {l l2 : List Flag}, applyArgOne n v l = some l2 →
      l2.length = l.length ∧
      ∀ (i : Nat) (h1 : i < l.length) (h2 : i < l2.length),
        setCLI n v l[i] = some l2[i] := by
  intro l
  induction l with
  | nil =>
    intro l2 h
    simp only [applyArgOne] at h
    injection h with h
    subst h
    exact ⟨rfl, fun i h1 _ => absurd h1 (by simp)⟩
  | cons f rest ih =>
    intro l2 h
    cases hf : setCLI n v f with
    | none => simp [applyArgOne, hf] at h
    | some g =>
      cases hr : applyArgOne n v rest with
      | none => simp [applyArgOne, hf, hr] at h
      | some grest =>
        simp only [applyArgOne, hf, hr] at h
        injection h with h
        subst h
        obtain ⟨hlen, hget⟩ := ih hr
        refine ⟨by simp [hlen], ?_⟩
        intro i h1 h2
        cases i with
        | zero => simpa using hf
        | succ j =>
          have hj1 : j < rest.length := by
            simpa using Nat.lt_of_succ_lt_succ h1
          have hj2 : j < grest.length := by
            simpa using Nat.lt_of_succ_lt_succ h2
          simpa using hget j hj1 hj2

lemma parseArgs_ok :
    ∀ {args : List (String × String)} {l l2 : List Flag},
      parseArgs l args = some l2 →
      l2.length = l.length ∧
      ∀ (i : Nat) (h1 : i < l.length) (h2 : i < l2.length),
        (l2[i].name = l[i].name ∧ l2[i].env = l[i].env ∧
          l2[i].dflt = l[i].dflt) ∧
        ((∀ a ∈ args, a.1 ≠ l[i].name) → l2[i] = l[i]) := by
  intro args
  induction args with
  | nil =>
    intro l l2 h
    simp only [parseArgs] at h
    injection h with h
    subst h
    exact ⟨rfl, fun i h1 h2 => ⟨⟨rfl, rfl, rfl⟩, fun _ => rfl⟩⟩
  | cons a rest ih =>
    intro l l2 h
    cases ha : applyArgOne a.1 a.2 l with
    | none => simp [parseArgs, ha] at h
    | some lA =>
      simp only [parseArgs, ha] at h
      obtain ⟨hlenA, hgetA⟩ := applyArgOne_ok ha
      obtain ⟨hlen, hget⟩ := ih h
      refine ⟨hlen.trans hlenA, ?_⟩
      intro i h1 h2
      have hiA : i < lA.length := by omega
      have hfieldsA := setCLI_some_inv (hgetA i h1 hiA)
      obtain ⟨hfields, huntouched⟩ := hget i hiA h2
      refine ⟨⟨hfields.1.trans hfieldsA.1, hfields.2.1.trans hfieldsA.2.1,
        hfields.2.2.trans hfieldsA.2.2⟩, ?_⟩
      intro hnone
      have hhead : a.1 ≠ l[i].name := hnone a (by simp)
      have hAeq : lA[i] = l[i] := by
        have := setCLI_other (n := a.1) (v := a.2) (f := l[i])
          (fun hc => hhead hc.symm)
        rw [this] at *
        have h3 := hgetA i h1 hiA
        rw [setCLI_other (fun hc => hhead hc.symm)] at h3
        injection h3 with h3
        exact h3.symm
      rw [← hAeq]
      refine huntouched ?_
      intro b hb
      rw [hAeq]
      exact hnone b (List.mem_cons_of_mem a hb)

/-! ASCII character-class facts used by the name-derivation proofs. -/

lemma lower_not_upper {c : Char} (h : c.isLower = true) : c.isUpper = false := by
  simp [Char.isLower, Char.isUpper, UInt32.le_def, BitVec.le_def] at h ⊢
  omega

lemma digit_not_lower {c : Char} (h : c.isDigit = true) : c.isLower = false := by
  simp [Char.isDigit, Char.isLower, UInt32.le_def, BitVec.le_def] at h ⊢
  omega

lemma digit_not_upper {c : Char} (h : c.isDigit = true) : c.isUpper = false := by
  simp [Char.isDigit, Char.isUpper, UInt32.le_def, BitVec.le_def] at h ⊢
  omega

lemma upper_not_lower {c : Char} (h : c.isUpper = true) : c.isLower = false := by
  simp [Char.isUpper, Char.isLower, UInt32.le_def, BitVec.le_def] at h ⊢
  omega

lemma toUpper_of_not_lower {c : Char} (h : c.isLower = false) : c.toUpper = c := by
  simp [Char.isLower, UInt32.le_def, BitVec.le_def] at h
  simp [Char.toUpper, Char.toNat]
  intro h1 h2
  exfalso
  simp [UInt32.toNat] at h1 h2
  omega

/-! Scan lemmas for MixedCapsToScreamingSnake. -/

lemma mcssAux_lower :
    ∀ (b : List Char) (prev : Char), (∀ x ∈ b, x.isLower = true) →
      mcssAux prev b = b.map Char.toUpper := by
  intro b
  induction b with
  | nil => intro prev _; rfl
  | cons c rest ih =>
    intro prev h
    have hcu : c.isUpper = false := lower_not_upper (h c (by simp))
    simp only [mcssAux, hcu, Bool.false_eq_true, false_and, if_false, List.map_cons]
    rw [ih c (fun x hx => h x (by simp [hx]))]

lemma mcssAux_boundary :
    ∀ (a2 : List Char) (c : Char) (b : List Char) (prev : Char),
      prev.isLower = true → (∀ x ∈ a2, x.isLower = true) → c.isUpper = true →
      (∀ x ∈ b, x.isLower = true) →
      mcssAux prev (a2 ++ c :: b) =
        a2.map Char.toUpper ++ '_' :: c :: b.map Char.toUpper := by
  intro a2
  induction a2 with
  | nil =>
    intro c b prev hprev ha hc hb
    have hpu : prev.isUpper = false := lower_not_upper hprev
    simp only [List.nil_append, mcssAux, hc, hpu, and_self, if_true, List.map_nil]
    rw [mcssAux_lower b c hb]
  | cons d rest ih =>
    intro c b prev hprev ha hc hb
    have hd : d.isLower = true := ha d (by simp)
    have hdu : d.isUpper = false := lower_not_upper hd
    simp only [List.cons_append, mcssAux, hdu, Bool.false_eq_true, false_and,
      if_false, List.map_cons, List.cons_append]
    exact congrArg (d.toUpper :: ·) (ih c b d hd (fun x hx => ha x (by simp [hx])) hc hb)

lemma mcssAux_scream :
    ∀ (b : List Char) (prev : Char), screamingOkFrom prev b = true →
      mcssAux prev b = b := by
  intro b
  induction b with
  | nil => intro prev _; rfl
  | cons c rest ih =>
    intro prev h
    simp only [screamingOkFrom, Bool.and_eq_true] at h
    obtain ⟨hc, hrest⟩ := h
    have hcls : c.isLower = false ∧ ¬(c.isUpper = true ∧ prev.isUpper = false) := by
      rcases Bool.or_eq_true _ _ |>.mp hc with h1 | h1
      · rcases Bool.or_eq_true _ _ |>.mp h1 with h2 | h2
        · exact ⟨digit_not_lower h2, fun hcon => by
            rw [digit_not_upper h2] at hcon
            exact absurd hcon.1 (by decide)⟩
        · have h3 : c = '_' := by simpa using h2
          subst h3
          exact ⟨by decide, fun hcon => absurd hcon.1 (by decide)⟩
      · obtain ⟨h2, h3⟩ := Bool.and_eq_true _ _ |>.mp h1
        exact ⟨upper_not_lower h2, fun hcon => by rw [h3] at hcon; exact absurd hcon.2 (by decide)⟩
    unfold mcssAux
    rw [if_neg hcls.2, toUpper_of_not_lower hcls.1, ih c hrest]

/-! The claims. -/

/-- C7: applyPrefix is idempotent: for every name n and every prefix p,
applyPrefix(applyPrefix(n, p), p) equals applyPrefix(n, p), so re-applying
the prefix during re-resolution never produces a doubly-prefixed
environment name. -/
theorem c7_applyPfx_idempotent (n p : String) :
    applyPfx (applyPfx n p) p = applyPfx n p := by
  by_cases hp : p = ""
  · simp [applyPfx, hp]
  · by_cases hpre : goHasPfx n p = false
    · have h1 : applyPfx n p = p ++ n := by rw [applyPfx, if_pos ⟨hp, hpre⟩]
      rw [h1, applyPfx, if_neg]
      rintro ⟨-, hc⟩
      rw [goHasPfx_append] at hc
      exact absurd hc (by decide)
    · have h1 : applyPfx n p = n := by
        rw [applyPfx, if_neg]
        rintro ⟨-, hc⟩
        exact hpre hc
      rw [h1]
      exact h1

/-- C4 counterexample: the identifier "ALREADY_SCREAMING" is in
screaming-snake form (upper-case letters and underscores), yet derive is
not the identity on it: the upper-case letter after the underscore is
preceded by a non-upper character, so an extra underscore is inserted and
the result is "ALREADY__SCREAMING". -/
theorem c4_counterexample :
    MixedCapsToScreamingSnake "ALREADY_SCREAMING" = "ALREADY__SCREAMING" ∧
    MixedCapsToScreamingSnake "ALREADY_SCREAMING" ≠ "ALREADY_SCREAMING" := by
  decide

/-- C4 (amended): for identifiers made of lower-case letters with a single
embedded upper-case letter (e.g. "myInt"), derive yields the upper-cased,
underscore-joined form; and an identifier of upper-case letters, digits
and underscores is a fixed point of derive provided every upper-case
letter after the first character is directly preceded by another
upper-case letter (an upper-case letter directly after an underscore or a
digit gains an extra underscore instead, as the counterexample shows). -/
theorem c4_mcss_amended :
    (∀ (a0 : Char) (a2 b : List Char) (c : Char),
      a0.isLower = true → (∀ x ∈ a2, x.isLower = true) →
      c.isUpper = true → (∀ x ∈ b, x.isLower = true) →
      MixedCapsToScreamingSnake (String.mk (a0 :: a2 ++ c :: b)) =
        String.mk ((a0 :: a2).map Char.toUpper ++ '_' :: c :: b.map Char.toUpper))
    ∧ (∀ s : String, screamingForm s = true → MixedCapsToScreamingSnake s = s) := by
  constructor
  · intro a0 a2 b c h0 ha hc hb
    have hstep : MixedCapsToScreamingSnake (String.mk (a0 :: a2 ++ c :: b)) =
        String.mk (a0.toUpper :: mcssAux a0 (a2 ++ c :: b)) := rfl
    rw [hstep, mcssAux_boundary a2 c b a0 h0 ha hc hb]
    simp
  · intro s h
    obtain ⟨cs⟩ := s
    cases cs with
    | nil => rfl
    | cons c rest =>
      simp only [screamingForm] at h
      obtain ⟨h3, h4⟩ := Bool.and_eq_true _ _ |>.mp h
      have hlow : c.isLower = false := by
        rcases Bool.or_eq_true _ _ |>.mp h3 with h5 | h5
        · rcases Bool.or_eq_true _ _ |>.mp h5 with h6 | h6
          · exact upper_not_lower h6
          · exact digit_not_lower h6
        · have h7 : c = '_' := by simpa using h5
          subst h7
          decide
      show String.mk (c.toUpper :: mcssAux c rest) = String.mk (c :: rest)
      rw [toUpper_of_not_lower hlow, mcssAux_scream rest c h4]

/-- C4 witness: the amended theorem applied at "myInt" (single boundary)
and at "ABC1" (screaming form with no upper-case letter after a non-upper
character). -/
theorem c4_mcss_amended_witness :
    MixedCapsToScreamingSnake "myInt" = "MY_INT" ∧
    MixedCapsToScreamingSnake "ABC1" = "ABC1" := by
  constructor
  · have h := c4_mcss_amended.1 'm' ['y'] ['n', 't'] 'I'
      (by decide) (by decide) (by decide) (by decide)
    have e1 : String.mk ('m' :: ['y'] ++ 'I' :: ['n', 't']) = "myInt" := by decide
    have e2 : String.mk (('m' :: ['y']).map Char.toUpper ++
        '_' :: 'I' :: ['n', 't'].map Char.toUpper) = "MY_INT" := by decide
    rw [e1, e2] at h
    exact h
  · exact c4_mcss_amended.2 "ABC1" (by decide)

/-- C1: for every binding explicitly set via command-line arguments
(Changed = true after parse), the environment pass never consults an
environment value for it — the per-binding environment step returns it
unchanged whatever the environment function is — and never modifies its
registered storage cell: across the initial resolution and every
subsequent sequence of SetPrefix and re-resolution calls the binding keeps
its Changed mark and its cell, and its state is at most the pure
materialization of its own command-line-written backing string. -/
theorem c1_explicit_flag_pinned :
    (∀ (pfx : String) (envm : String → Option String) (f : Flag),
      f.changed = true → resolveFlag pfx envm f = Except.ok f)
    ∧ (∀ (fs fs2 : FlagSet) (steps : List Step) (i : Nat)
        (h1 : i < fs.formal.length) (h2 : i < fs2.formal.length),
        runSteps fs steps = Except.ok fs2 →
        fs.formal[i].changed = true →
        fs2.formal[i].cell = fs.formal[i].cell ∧
        fs2.formal[i].changed = true ∧
        (fs2.formal[i] = fs.formal[i] ∨
          fs2.formal[i] = materializeFlag fs.formal[i])) := by
  constructor
  · intro pfx envm f h
    exact resolveFlag_skip (Or.inl h)
  · intro fs fs2 steps i h1 h2 hrun hch
    have hskip := runSteps_skip hrun i h1 h2 (Or.inl hch)
    refine ⟨?_, ?_, hskip⟩
    · rcases hskip with h | h
      · rw [h]
      · rw [h]
        exact materializeFlag_cell _
    · rcases hskip with h | h
      · rw [h]
        exact hch
      · rw [h]
        exact (materializeFlag_fields _).1.trans hch

/-- C1 witness: the theorem applied to the concrete scenario. -/
theorem c1_explicit_flag_pinned_witness :
    resolveFlag "" envC1 flagX = Except.ok flagX ∧
    ((fsC1after.formal.get ⟨0, by decide⟩).cell =
        (fsC1.formal.get ⟨0, by decide⟩).cell ∧
      (fsC1after.formal.get ⟨0, by decide⟩).changed = true ∧
      (fsC1after.formal.get ⟨0, by decide⟩ = fsC1.formal.get ⟨0, by decide⟩ ∨
        fsC1after.formal.get ⟨0, by decide⟩ =
          materializeFlag (fsC1.formal.get ⟨0, by decide⟩))) :=
  ⟨c1_explicit_flag_pinned.1 "" envC1 flagX rfl,
   c1_explicit_flag_pinned.2 fsC1 fsC1after [⟨none, envC1⟩] 0
     (by decide) (by decide) rfl rfl⟩

/-- C2: a binding registered with the suppression marker "-" keeps, after
the argument pass and any sequence of SetPrefix and (re-)resolution calls,
exactly the state the command line left it in (up to materializing its own
backing string): its registered cell equals the command-line-written cell
when one was supplied, and exactly the default cell otherwise; with a
scalar default and no argument the storage is literally the default. No
environment content ever enters it. -/
theorem c2_suppressed_binding :
    ∀ (name : String) (dflt : EValue) (fs0 : FlagSet)
      (args : List (String × String)) (l1 : List Flag)
      (e0 : String → Option String) (fs1 fs2 : FlagSet) (steps : List Step)
      (i : Nat) (h0 : i < fs0.formal.length) (h1 : i < l1.length)
      (h2 : i < fs2.formal.length),
      fs0.formal[i] = newFlag name dflt "-" →
      parseArgs fs0.formal args = some l1 →
      FlagSet.parse { fs0 with formal := l1 } e0 = Except.ok fs1 →
      runSteps fs1 steps = Except.ok fs2 →
      fs2.formal[i] = materializeFlag l1[i] ∧
      fs2.formal[i].cell = l1[i].cell ∧
      ((∀ a ∈ args, a.1 ≠ name) →
        fs2.formal[i].cell = dflt.regCell ∧
        ((∀ x : StringList, dflt ≠ EValue.sl x) →
          fs2.formal[i].storage = dflt)) := by
  intro name dflt fs0 args l1 e0 fs1 fs2 steps i h0 h1 h2 hreg hcli hparse hrun
  obtain ⟨hlen1, hget1⟩ := parseArgs_ok hcli
  have henv1 : l1[i].env = "-" := by
    have := (hget1 i h0 h1).1.2.1
    rw [hreg] at this
    exact this
  have hname1 : l1[i].name = name := by
    have := (hget1 i h0 h1).1.1
    rw [hreg] at this
    exact this
  have hfs1len : fs1.formal.length = l1.length := (parse_ok_inv hparse).2.1
  have hi1 : i < fs1.formal.length := by omega
  obtain ⟨g, hres, hmat⟩ := (parse_ok_inv hparse).2.2 i h1 hi1
  have hg : g = l1[i] := by
    rw [resolveFlag_skip (Or.inr henv1)] at hres
    injection hres with hres
    exact hres.symm
  subst hg
  have hfs1i : fs1.formal[i] = materializeFlag l1[i] := hmat
  have hskip1 : fs1.formal[i].changed = true ∨ fs1.formal[i].env = "-" := by
    rw [hfs1i]
    exact Or.inr ((materializeFlag_fields _).2.1.trans henv1)
  have hfin : fs2.formal[i] = materializeFlag l1[i] := by
    rcases runSteps_skip hrun i hi1 h2 hskip1 with h | h
    · rw [h, hfs1i]
    · rw [h, hfs1i, materializeFlag_idem]
  refine ⟨hfin, by rw [hfin]; exact materializeFlag_cell _, ?_⟩
  intro hnone
  have huntouched : l1[i] = fs0.formal[i] := by
    refine (hget1 i h0 h1).2 ?_
    intro a ha
    rw [hreg]
    exact hnone a ha
  have hl1 : l1[i] = newFlag name dflt "-" := huntouched.trans hreg
  constructor
  · rw [hfin, materializeFlag_cell, hl1]
    rfl
  · intro hscalar
    rw [hfin, hl1, materializeFlag_scalar]
    · rfl
    · intro x
      exact fun hc => hscalar x hc

/-- C2 witness: the theorem applied to the concrete scenario; the
suppressed binding still holds the default, not "custom". -/
theorem c2_suppressed_binding_witness :
    (fsC2after.formal.get ⟨0, by decide⟩).cell = (EValue.s "default").regCell ∧
    (fsC2after.formal.get ⟨0, by decide⟩).storage = EValue.s "default" := by
  have h := c2_suppressed_binding "mystring" (EValue.s "default") fsC2 []
    fsC2.formal envC2 fsC2 fsC2after [⟨some "PRE", envC2⟩] 0
    (by decide) (by decide) (by decide) rfl rfl rfl rfl
  have hno : ∀ a ∈ ([] : List (String × String)), a.1 ≠ "mystring" := by simp
  exact ⟨(h.2.2 hno).1, (h.2.2 hno).2 (fun x hx => EValue.noConfusion hx)⟩

/-- C3 counterexample: a binding with derived name "FOO" is resolved once
under prefix "A", then SetPrefix("B") is called and a re-resolution runs.
The claim predicts that the re-resolution consults
applyPrefix("FOO", "B_") = "B_FOO"; the code instead mutates the stored
name to "B_A_FOO" (the old prefix stays embedded), and the value 42
offered by the environment under "B_FOO" is not picked up: the storage
stays 0. -/
theorem c3_counterexample :
    (runSteps { formal := [newFlag "foo" (EValue.i 0) ""], pfx := "" }
        [⟨some "A", fun _ => none⟩,
         ⟨some "B", fun n => if n = "B_FOO" then some "42" else none⟩]).map
        (fun fs => fs.formal.map (fun f => (f.env, f.storage)))
      = Except.ok [("B_A_FOO", EValue.i 0)] ∧
    applyPfx (MixedCapsToScreamingSnake "foo") (normalizePfx "B") = "B_FOO" ∧
    ("B_A_FOO" : String) ≠ "B_FOO" ∧
    (fun n => if n = "B_FOO" then some "42" else none : String → Option String)
        "B_FOO" = some "42" ∧
    setFromStr (EValue.i 0) "42" = some (EValue.i 42) := by
  refine ⟨rfl, rfl, by decide, rfl, rfl⟩

/-- C3 (amended): the resolved environment name is not recomputed from the
env directive on each pass; it is the stored name updated in place. Each
pass consults and stores applyPrefix(storedName, currentPrefix), so after
an earlier resolution under prefix p1, a re-resolution under prefix p2
consults applyPrefix(applyPrefix(derivedOrExplicitName, p1), p2) — a name
that still embeds the old prefix — and not
applyPrefix(derivedOrExplicitName, p2). -/
theorem c3_env_name_mutation_amended :
    ∀ (p1 p2 : String) (e1 e2 : String → Option String) (f g : Flag),
      f.changed = false → f.env ≠ "-" →
      resolveFlag p1 e1 f = Except.ok g →
      g.env = applyPfx f.env p1 ∧ g.changed = false ∧
      (g.env ≠ "-" →
        (match resolveFlag p2 e2 g with
         | Except.ok g2 => g2.env
         | Except.error e => e.envName) = applyPfx (applyPfx f.env p1) p2) := by
  intro p1 p2 e1 e2 f g hch hsup hres
  have henv : g.env = applyPfx f.env p1 := resolveFlag_ok_env hch hsup hres
  have hchg : g.changed = false := (resolveFlag_ok_inv hres).1.trans hch
  refine ⟨henv, hchg, ?_⟩
  intro hgsup
  rw [resolveFlag_consulted hchg hgsup, henv]

/-- C3 witness: the amended theorem applied to the concrete scenario; the
second pass consults applyPrefix(applyPrefix("FOO", "A_"), "B_"). -/
theorem c3_env_name_mutation_amended_witness :
    (match resolveFlag "B_" envC3b flagC3g with
     | Except.ok g2 => g2.env
     | Except.error e => e.envName) =
      applyPfx (applyPfx (newFlag "foo" (EValue.i 0) "").env "A_") "B_" :=
  (c3_env_name_mutation_amended "A_" "B_" (fun _ => none) envC3b
    (newFlag "foo" (EValue.i 0) "") flagC3g rfl (by decide) rfl).2.2 (by decide)

/-- C5: when a consulted environment variable is present with a non-empty
value that the bound type cannot coerce, the per-binding step produces the
error (naming the variable and the offending text) and the whole
resolution pass returns the error branch — it never returns normally, so
no silent fallback to the default can be observed. -/
theorem c5_env_coercion_fatal :
    ∀ (fs : FlagSet) (envm : String → Option String) (f : Flag) (v : String),
      f ∈ fs.formal → f.changed = false → f.env ≠ "-" →
      osGetenv envm (applyPfx f.env fs.pfx) = v → v ≠ "" →
      setFromStr f.storage v = none →
      resolveFlag fs.pfx envm f = Except.error ⟨applyPfx f.env fs.pfx, v⟩ ∧
      (∃ e2, fs.parse envm = Except.error e2) ∧
      ¬∃ fs2, fs.parse envm = Except.ok fs2 := by
  intro fs envm f v hmem hch hsup hv hne hset
  have herr := resolveFlag_present_fail hch hsup hv hne hset
  obtain ⟨e2, hp⟩ := parse_error_of_mem hmem herr
  refine ⟨herr, ⟨e2, hp⟩, ?_⟩
  rintro ⟨fs2, hok⟩
  rw [hp] at hok
  exact Except.noConfusion hok

/-- C5 witness: the theorem applied to the concrete scenario. -/
theorem c5_env_coercion_fatal_witness :
    resolveFlag "" envC5 (newFlag "myint" (EValue.i 0) "") =
      Except.error ⟨"MYINT", "abc"⟩ ∧
    (∃ e2, fsC5.parse envC5 = Except.error e2) ∧
    ¬∃ fs2, fsC5.parse envC5 = Except.ok fs2 :=
  c5_env_coercion_fatal fsC5 envC5 (newFlag "myint" (EValue.i 0) "") "abc"
    (List.mem_cons_self _ _) rfl (by decide) rfl (by decide) rfl

/-- C6: for a non-explicitly-set, non-suppressed binding whose resolved
environment variable is absent or holds the empty string, the per-binding
environment step leaves the storage exactly as it was (only the stored env
name is updated), and the step behaves identically to the one where the
variable is absent altogether — the empty string is never handed to
coercion. -/
theorem c6_absent_or_empty_env :
    ∀ (pfx : String) (envm : String → Option String) (f : Flag),
      f.changed = false → f.env ≠ "-" →
      (envm (applyPfx f.env pfx) = none ∨ envm (applyPfx f.env pfx) = some "") →
      resolveFlag pfx envm f = Except.ok { f with env := applyPfx f.env pfx } ∧
      resolveFlag pfx envm f =
        resolveFlag pfx
          (fun n => if n = applyPfx f.env pfx then none else envm n) f := by
  intro pfx envm f hch hsup habs
  have hget : osGetenv envm (applyPfx f.env pfx) = "" := by
    rcases habs with h | h <;> simp [osGetenv, h]
  have h1 := resolveFlag_absent hch hsup hget
  have hget2 : osGetenv
      (fun n => if n = applyPfx f.env pfx then none else envm n)
      (applyPfx f.env pfx) = "" := by
    simp [osGetenv]
  have h2 := resolveFlag_absent hch hsup hget2
  exact ⟨h1, h1.trans h2.symm⟩

/-- C6 witness: the theorem applied to the concrete scenario; the binding
keeps its default "default" and the step equals the absent-variable
step. -/
theorem c6_absent_or_empty_env_witness :
    resolveFlag "" envC6 (newFlag "testunset" (EValue.s "default") "") =
      Except.ok ⟨"testunset", "TESTUNSET", false, EValue.s "default",
        EValue.s "default"⟩ ∧
    resolveFlag "" envC6 (newFlag "testunset" (EValue.s "default") "") =
      resolveFlag "" (fun n => if n = "TESTUNSET" then none else envC6 n)
        (newFlag "testunset" (EValue.s "default") "") :=
  c6_absent_or_empty_env "" envC6 (newFlag "testunset" (EValue.s "default") "")
    rfl (by decide) (Or.inr rfl)

/-- C8: ReParse runs only the environment pass — it is literally the same
function as the internal parse, taking no argv; it never changes any
binding's Changed mark; and every binding explicitly set during the
original Parse is left completely untouched by any number of subsequent
ReParse calls, whatever the environments contain. -/
theorem c8_reparse_env_only :
    (∀ (fs : FlagSet) (envm : String → Option String),
      fs.ReParse envm = fs.parse envm)
    ∧ (∀ (fs fs2 : FlagSet) (envm : String → Option String) (i : Nat)
        (h1 : i < fs.formal.length) (h2 : i < fs2.formal.length),
        fs.ReParse envm = Except.ok fs2 →
        fs2.formal[i].changed = fs.formal[i].changed)
    ∧ (∀ (fs0 : FlagSet) (args : List (String × String))
        (e0 : String → Option String) (fs1 fs2 : FlagSet)
        (envs : List (String → Option String)) (i : Nat)
        (h1 : i < fs1.formal.length) (h2 : i < fs2.formal.length),
        FlagSet.Parse fs0 args e0 = some (Except.ok fs1) →
        runSteps fs1 (envs.map (fun e => ⟨none, e⟩)) = Except.ok fs2 →
        fs1.formal[i].changed = true →
        fs2.formal[i] = fs1.formal[i]) := by
  refine ⟨fun fs envm => rfl, ?_, ?_⟩
  · intro fs fs2 envm i h1 h2 hre
    obtain ⟨g, hres, hmat⟩ := (parse_ok_inv hre).2.2 i h1 h2
    rw [hmat]
    exact (materializeFlag_fields g).1.trans (resolveFlag_ok_inv hres).1
  · intro fs0 args e0 fs1 fs2 envs i h1 h2 hParse hrun hch
    unfold FlagSet.Parse at hParse
    cases hargs : parseArgs fs0.formal args with
    | none =>
      rw [hargs] at hParse
      exact Option.noConfusion hParse
    | some l =>
      rw [hargs] at hParse
      injection hParse with hParse
      have hlen1 : fs1.formal.length = l.length := (parse_ok_inv hParse).2.1
      have hil : i < l.length := by omega
      obtain ⟨g, hres, hmat⟩ := (parse_ok_inv hParse).2.2 i hil h1
      have hfix : materializeFlag fs1.formal[i] = fs1.formal[i] := by
        rw [hmat, materializeFlag_idem]
      rcases runSteps_skip hrun i h1 h2 (Or.inl hch) with h | h
      · exact h
      · rw [h, hfix]

/-- C8 witness: the theorem applied to the concrete scenario; the pinned
flag b stays true across a re-resolution even though B=false. -/
theorem c8_reparse_env_only_witness :
    fsC8.ReParse envC8 = fsC8.parse envC8 ∧
    (fsC8.formal.get ⟨0, by decide⟩).changed =
      (fsC8.formal.get ⟨0, by decide⟩).changed ∧
    fsC8.formal.get ⟨0, by decide⟩ = fsC8.formal.get ⟨0, by decide⟩ :=
  ⟨c8_reparse_env_only.1 fsC8 envC8,
   c8_reparse_env_only.2.1 fsC8 fsC8 envC8 0 (by decide) (by decide) rfl,
   c8_reparse_env_only.2.2 fsC8start [("b", "true")] envC8 fsC8 fsC8 [envC8] 0
     (by decide) (by decide) rfl rfl rfl⟩

/-- C9: a string-list binding that is not explicitly set and whose
resolved environment variable holds "a, b ,c" ends the environment pass
with backing string "a, b ,c" and materialized value ["a", "b", "c"]: the
raw text is captured by the scalar pass and the materialization step that
runs afterwards splits it on commas and trims each part. -/
theorem c9_stringlist_roundtrip :
    ∀ (fs fs2 : FlagSet) (envm : String → Option String) (x : StringList)
      (i : Nat) (h1 : i < fs.formal.length) (h2 : i < fs2.formal.length),
      fs.formal[i].changed = false →
      fs.formal[i].env ≠ "-" →
      fs.formal[i].storage = EValue.sl x →
      envm (applyPfx fs.formal[i].env fs.pfx) = some "a, b ,c" →
      fs.parse envm = Except.ok fs2 →
      fs2.formal[i].storage = EValue.sl ⟨"a, b ,c", ["a", "b", "c"]⟩ ∧
      SplitWithComma "a, b ,c" = ["a", "b", "c"] := by
  intro fs fs2 envm x i h1 h2 hch hsup hsl henv hparse
  obtain ⟨g, hres, hmat⟩ := (parse_ok_inv hparse).2.2 i h1 h2
  have hv : osGetenv envm (applyPfx fs.formal[i].env fs.pfx) = "a, b ,c" := by
    simp [osGetenv, henv]
  have hset : setFromStr fs.formal[i].storage "a, b ,c" =
      some (EValue.sl { x with p := "a, b ,c" }) := by
    rw [hsl]
    rfl
  have hres2 := resolveFlag_present_ok hch hsup hv (by decide) hset
  rw [hres2] at hres
  injection hres with hres
  have hgsl : g.storage = EValue.sl ⟨"a, b ,c", x.value⟩ := by
    rw [← hres]
  have hsv : StringList.setValue ⟨"a, b ,c", x.value⟩ =
      ⟨"a, b ,c", ["a", "b", "c"]⟩ := by
    rw [StringList.setValue, if_pos (by decide : ("a, b ,c" : String) ≠ "")]
    show ({ p := "a, b ,c", value := SplitWithComma "a, b ,c" } : StringList) = _
    rw [show SplitWithComma "a, b ,c" = ["a", "b", "c"] from by decide]
  refine ⟨?_, by decide⟩
  rw [hmat, materializeFlag_sl hgsl]
  show EValue.sl (StringList.setValue ⟨"a, b ,c", x.value⟩) = _
  rw [hsv]

/-- C9 witness: the theorem applied to the concrete scenario. -/
theorem c9_stringlist_roundtrip_witness :
    (fsC9after.formal.get ⟨0, by decide⟩).storage =
      EValue.sl ⟨"a, b ,c", ["a", "b", "c"]⟩ ∧
    SplitWithComma "a, b ,c" = ["a", "b", "c"] :=
  c9_stringlist_roundtrip fsC9 fsC9after envC9 ⟨"", []⟩ 0
    (by decide) (by decide) rfl (by decide) rfl rfl rfl

/-- C10: when a StringList's backing string is empty at materialization
time, setValue leaves the materialized value untouched (so a fresh binding
reads back the empty list, not the one-element list [""] that
comma-splitting the empty string would produce), and a string-list binding
that received no argument and no environment value is left with its empty
backing string and empty value by the whole per-binding pass. -/
theorem c10_empty_raw_untouched :
    (∀ st : List String, StringList.setValue ⟨"", st⟩ = ⟨"", st⟩)
    ∧ SplitWithComma "" = [""]
    ∧ ([""] : List String) ≠ []
    ∧ StringList.Value (StringList.setValue ⟨"", []⟩) = []
    ∧ (∀ (pfx : String) (envm : String → Option String) (f : Flag)
        (val : List String),
        f.changed = false → f.env ≠ "-" → f.storage = EValue.sl ⟨"", val⟩ →
        osGetenv envm (applyPfx f.env pfx) = "" →
        resolveFlag pfx envm f =
          Except.ok { f with env := applyPfx f.env pfx } ∧
        materializeFlag { f with env := applyPfx f.env pfx } =
          { f with env := applyPfx f.env pfx }) := by
  refine ⟨?_, by decide, by decide, by decide, ?_⟩
  · intro st
    simp [StringList.setValue]
  · intro pfx envm f val hch hsup hsl hget
    refine ⟨resolveFlag_absent hch hsup hget, ?_⟩
    have h : ({ f with env := applyPfx f.env pfx } : Flag).storage =
        EValue.sl ⟨"", val⟩ := hsl
    rw [materializeFlag_sl h]
    rw [show StringList.setValue ⟨"", val⟩ = ⟨"", val⟩ from by
      simp [StringList.setValue]]
    rw [← h]

/-- C10 witness: the theorem applied to a fresh myStringList binding with
no argument and no environment value. -/
theorem c10_empty_raw_untouched_witness :
    StringList.setValue ⟨"", ["keep"]⟩ = ⟨"", ["keep"]⟩ ∧
    resolveFlag "" (fun _ => none)
        (newFlag "myStringList" (EValue.sl ⟨"", []⟩) "") =
      Except.ok ⟨"myStringList", "MY_STRING_LIST", false,
        EValue.sl ⟨"", []⟩, EValue.sl ⟨"", []⟩⟩ ∧
    materializeFlag ⟨"myStringList", "MY_STRING_LIST", false,
        EValue.sl ⟨"", []⟩, EValue.sl ⟨"", []⟩⟩ =
      ⟨"myStringList", "MY_STRING_LIST", false,
        EValue.sl ⟨"", []⟩, EValue.sl ⟨"", []⟩⟩ := by
  have h := c10_empty_raw_untouched.2.2.2.2 "" (fun _ => none)
    (newFlag "myStringList" (EValue.sl ⟨"", []⟩) "") [] rfl (by decide) rfl rfl
  exact ⟨c10_empty_raw_untouched.1 ["keep"], h.1, h.2⟩

end Eflag
